import Mathlib

/-!
Verification development for gh2pdf (src/gh2pdf.py), a tool converting a
source repository into a PDF.  The definitions below are a shallow embedding
of the Python source: the filesystem is modelled as a finite tree, `os.walk`
as a structural traversal with directory pruning, and the document-assembly
loop of `generate_pdf` as explicit state passing.  Each definition's doc
comment names the Python function and lines it is translated from.
-/

/-- A regular file as seen by the selector: its name, its size in bytes
(`st_size`), and whether `stat` succeeds (`collect_files` silently skips
files whose `stat` raises `OSError`, src/gh2pdf.py:104-107). -/
structure FSFile where
  name : String
  size : Nat
  statOk : Bool
deriving DecidableEq, Repr

/-- A directory tree: its base name, the regular files directly inside it,
and its subdirectories.  This models the part of the filesystem that
`os.walk(root)` traverses; sibling order models the (fixed) order in which
`os.walk` reports `dirnames`/`filenames`. -/
inductive FSDir where
  | node (name : String) (files : List FSFile) (subdirs : List FSDir)

/-- Base name of a directory (`os.path.basename(dirpath)`). -/
def FSDir.dirName : FSDir → String
  | .node n _ _ => n

def FSDir.dirFiles : FSDir → List FSFile
  | .node _ fs _ => fs

def FSDir.dirSubs : FSDir → List FSDir
  | .node _ _ subs => subs

/-- `pathlib.PurePath.suffix` for a file name: the part of `name` from the
last dot on, provided that dot is neither the first nor the last character;
otherwise the empty string.  (CPython: `i = name.rfind(".")`, return
`name[i:]` if `0 < i < len(name) - 1` else `""`.) -/
def pySuffix (name : String) : String :=
  let cs := name.data
  match cs.reverse.findIdx? (fun c => c = '.') with
  | none => ""
  | some k =>
    let i := cs.length - 1 - k
    if 0 < i ∧ i < cs.length - 1 then String.mk (cs.drop i) else ""

/-- Stable insertion into a sorted list: `f` is placed before the first
element whose name is not smaller, so elements with equal names keep their
original relative order, as with Python's stable `sorted`. -/
def insertByName (f : FSFile) : List FSFile → List FSFile
  | [] => [f]
  | g :: gs => if g.name < f.name then g :: insertByName f gs else f :: g :: gs

/-- `sorted(filenames)` in `build_tree` (src/gh2pdf.py:87) and
`collect_files` (src/gh2pdf.py:99): Python's stable lexicographic sort of
the file names of one directory (insertion sort; same ordering semantics). -/
def sortFiles : List FSFile → List FSFile
  | [] => []
  | f :: fs => insertByName f (sortFiles fs)

/-- `str.lower()` as the character-wise ASCII case mapping (extensions are
ASCII; `Char.toLower` is the same mapping). -/
def pyLower (s : String) : String := String.mk (s.data.map Char.toLower)

/-- The extension test shared by `build_tree` (src/gh2pdf.py:88-89) and
`collect_files` (src/gh2pdf.py:101-102): `Path(filename).suffix.lower()`
must be in `include_exts`. -/
def extOk (include_exts : List String) (f : FSFile) : Bool :=
  include_exts.contains (pyLower (pySuffix f.name))

mutual

/-- One step of `os.walk` with the pruning
`dirnames[:] = [d for d in dirnames if d not in exclude_dirs]`
(src/gh2pdf.py:77-78 and 97-98): the list of visited directories in
depth-first (top-down) order, each paired with its relative path from the
root (as path segments) and its files.  The root itself is never tested
against `exclude_dirs`; only subdirectory names are. -/
def walkTree (exclude_dirs : List String) (rel : List String) : FSDir → List (List String × List FSFile)
  | .node _ files subs => (rel, files) :: walkList exclude_dirs rel subs

/-- Traversal of a pruned `dirnames` list: an excluded subdirectory is never
descended into (its whole subtree is skipped, matching the in-place pruning
before recursion in `os.walk`). -/
def walkList (exclude_dirs : List String) (rel : List String) : List FSDir → List (List String × List FSFile)
  | [] => []
  | d :: ds =>
      (if exclude_dirs.contains d.dirName then []
       else walkTree exclude_dirs (rel ++ [d.dirName]) d)
      ++ walkList exclude_dirs rel ds

end

/-- The files of one directory that `build_tree` lists (src/gh2pdf.py:87-90):
the sorted file names whose lowercased suffix is in `include_exts`.  No size
test is performed in `build_tree`. -/
def treeDirFiles (include_exts : List String) (files : List FSFile) : List FSFile :=
  (sortFiles files).filter (extOk include_exts)

/-- The files of one directory that `collect_files` keeps
(src/gh2pdf.py:99-110): sorted, suffix in `include_exts`, `stat` succeeds,
and `size_kb = st_size / 1024` not greater than `max_size_kb` (equivalently,
`st_size ≤ max_size_kb * 1024`; the float division by the power of two 1024
and the comparison with an integer are exact). -/
def collectDirFiles (include_exts : List String) (max_size_kb : Nat) (files : List FSFile) : List FSFile :=
  (sortFiles files).filter
    (fun f => extOk include_exts f && f.statOk && !(decide (max_size_kb * 1024 < f.size)))

/-- `build_tree` (src/gh2pdf.py:73-92): the rendered tree text.  For every
visited directory a line with `indent_level` two-space units (`0` for the
root, `rel_dir.count(os.sep) + 1`, i.e. the number of path segments,
otherwise), the base name and a trailing slash; below it one line per
included file, indented one more unit. -/
def build_tree (root : FSDir) (include_exts exclude_dirs : List String) : String :=
  let lines := (walkTree exclude_dirs [] root).flatMap (fun e =>
    let indent := String.join (List.replicate e.1.length "  ")
    let dirLine :=
      if e.1 = [] then root.dirName ++ "/"
      else indent ++ e.1.getLastD "" ++ "/"
    dirLine :: (treeDirFiles include_exts e.2).map (fun f => indent ++ "  " ++ f.name))
  String.intercalate "\n" lines

/-- The set (ordered list) of files that appear as file lines in the tree
text produced by `build_tree`, as root-relative paths (directory segments
followed by the file name).  This records exactly the files for which
`build_tree` appends a `f"{indent}  {filename}"` line (src/gh2pdf.py:87-90):
the traversal (`walkTree`) and the per-directory selection (`treeDirFiles`)
are shared with `build_tree` itself. -/
def treeListedFiles (root : FSDir) (include_exts exclude_dirs : List String) : List (List String) :=
  (walkTree exclude_dirs [] root).flatMap (fun e =>
    (treeDirFiles include_exts e.2).map (fun f => e.1 ++ [f.name]))

/-- `collect_files` (src/gh2pdf.py:95-111), composed with the
`path.relative_to(repo_root)` conversion that `generate_pdf` applies to each
returned path (src/gh2pdf.py:322): the ordered list of selected files as
root-relative paths. -/
def collect_files (root : FSDir) (include_exts exclude_dirs : List String) (max_size_kb : Nat) : List (List String) :=
  (walkTree exclude_dirs [] root).flatMap (fun e =>
    (collectDirFiles include_exts max_size_kb e.2).map (fun f => e.1 ++ [f.name]))

/-- `xml.sax.saxutils.escape` on a single character:
`data.replace("&", "&amp;").replace("<", "&lt;").replace(">", "&gt;")`
replaces every original character independently (the replacement passes
cannot overlap), so the whole escape is the character-wise map of this
function. -/
def escapeChar (c : Char) : List Char :=
  if c = '&' then ['&', 'a', 'm', 'p', ';']
  else if c = '<' then ['&', 'l', 't', ';']
  else if c = '>' then ['&', 'g', 't', ';']
  else [c]

def escapeList (cs : List Char) : List Char := (cs.map escapeChar).flatten

/-- `xml.sax.saxutils.escape` as used by `build_code_lines`
(src/gh2pdf.py:129-161): escapes `&`, `<` and `>`. -/
def escape (s : String) : String := String.mk (escapeList s.data)

/-- A string contains none of the markup-reserved characters `&`, `<`, `>`. -/
def noReserved (cs : List Char) : Bool :=
  cs.all (fun c => !(c = '&' || c = '<' || c = '>'))

/-- `lines[-1] += s` on a nonempty `lines` list (src/gh2pdf.py:156-158).
On the (unreachable) empty list it starts a fresh line. -/
def appendLast (lines : List String) (s : String) : List String :=
  lines.dropLast ++ [lines.getLastD "" ++ s]

/-- The inner loop of the highlighted branch of `build_code_lines`
(src/gh2pdf.py:151-160) for one token: `parts = value.split("\n")`; each
nonempty part is escaped, wrapped in a font tag when the token has a color,
and appended to the current line; every part but the last additionally
starts a new line. -/
def buildHLParts (color : Option String) : List String → List String → List String
  | lines, [] => lines
  | lines, [p] =>
      if p = "" then lines
      else
        match color with
        | some c => appendLast lines ("<font color=\"#" ++ c ++ "\">" ++ escape p ++ "</font>")
        | none => appendLast lines (escape p)
  | lines, p :: q :: rest =>
      let lines1 :=
        if p = "" then lines
        else
          match color with
          | some c => appendLast lines ("<font color=\"#" ++ c ++ "\">" ++ escape p ++ "</font>")
          | none => appendLast lines (escape p)
      buildHLParts color (lines1 ++ [""]) (q :: rest)

/-- The highlighted branch of `build_code_lines` (src/gh2pdf.py:145-161):
start from `lines = [""]`, skip empty token values, and fold every token
through `buildHLParts`.  The token stream (each token's theme color, already
resolved through the `_token_color` hierarchy walk, and its text) is taken
as input: it abstracts `lex(text, lexer)` with the lexer chosen from the
file name. -/
def buildHighlighted (tokens : List (Option String × String)) : List String :=
  tokens.foldl
    (fun lines tk =>
      if tk.2 = "" then lines else buildHLParts tk.1 lines (tk.2.splitOn "\n"))
    [""]

/-- `build_code_lines` (src/gh2pdf.py:129-161).  `pygmentsAvailable` models
whether `from pygments import ...` succeeds (line 133-138); `tokens` models
the lexer output used in the highlighted branch.  With highlighting off, or
with the tokenizer import failing, the result is
`[escape(line) for line in text.split("\n")]`. -/
def build_code_lines (pygmentsAvailable : Bool) (tokens : List (Option String × String))
    (text : String) (highlight : Bool) : List String :=
  if highlight = false then (text.splitOn "\n").map escape
  else if pygmentsAvailable = false then (text.splitOn "\n").map escape
  else buildHighlighted tokens

/-- A directory heading as appended by `generate_pdf` (src/gh2pdf.py:324-330):
the style name (`"Heading1"` for the first path segment, `"Heading2"` for
deeper segments), the `current_dir_parts` value it announces, and the
paragraph text `"/".join(current_dir_parts)`. -/
structure DirHeading where
  style : String
  parts : List String
  text : String
deriving DecidableEq, Repr

/-- The inner `for idx, part in enumerate(dir_parts)` loop of `generate_pdf`
(src/gh2pdf.py:324-330).  `pre` is `dir_parts[:idx]`, the segments already
handled (so `idx = pre.length`), and `todo` the remaining segments, making
`pre ++ todo` the file's full `dir_parts`.  When
`len(current_dir_parts) > idx and current_dir_parts[idx] == part`
(equivalently `current[idx]? = some part`) the segment is skipped; otherwise
`current_dir_parts` becomes `dir_parts[: idx + 1] = pre ++ [part]` and a
heading for it is emitted (`"Heading1"` for `idx == 0`, else `"Heading2"`,
with text `"/".join(current_dir_parts)`).  Returns the emitted headings and
the final `current_dir_parts`. -/
def dirHeadLoop (pre : List String) : List String → List String → List DirHeading × List String
  | [], current => ([], current)
  | part :: todo, current =>
      if current[pre.length]? = some part then
        dirHeadLoop (pre ++ [part]) todo current
      else
        let cur2 := pre ++ [part]
        let hd : DirHeading :=
          { style := if pre.length = 0 then "Heading1" else "Heading2"
            parts := cur2
            text := String.intercalate "/" cur2 }
        let rest := dirHeadLoop cur2 todo cur2
        (hd :: rest.1, rest.2)

/-- The full inner loop of `generate_pdf` over one file's `dir_parts`
(src/gh2pdf.py:324-330), starting at `idx = 0`. -/
def dirHeadEmit (dirParts current : List String) : List DirHeading × List String :=
  dirHeadLoop [] dirParts current

/-- The outer `for path in files` loop of `generate_pdf`, restricted to its
directory-heading emission (src/gh2pdf.py:320-330): thread
`current_dir_parts` through the files (each given as its root-relative path
segments; `dir_parts = rel.parts[:-1]` is `dropLast`). -/
def dirHeadRun (current : List String) : List (List String) → List DirHeading × List String
  | [] => ([], current)
  | rel :: rest =>
      let r := dirHeadEmit rel.dropLast current
      let rr := dirHeadRun r.2 rest
      (r.1 ++ rr.1, rr.2)

/-- The file-heading style choice of `generate_pdf` (src/gh2pdf.py:332-335):
`"Heading3"` when the file has two or more directory segments, else
`"Heading2"`. -/
def fileHeadingStyle (rel : List String) : String :=
  if 2 ≤ rel.dropLast.length then "Heading3" else "Heading2"

/-- A flowable as far as `TOCDocTemplate.afterFlowable` can observe it
(src/gh2pdf.py:207-218): its paragraph style name, when it has one
(`hasattr(flowable, "style")`), and its plain text. -/
structure Flowable where
  style : Option String
  text : String
deriving DecidableEq, Repr

/-- The `level_map` of `TOCDocTemplate.afterFlowable` (src/gh2pdf.py:210-217):
only the three heading styles produce an outline/TOC level. -/
def levelMap (s : String) : Option Nat :=
  if s = "Heading1" then some 0
  else if s = "Heading2" then some 1
  else if s = "Heading3" then some 2
  else none

/-- The texts for which `afterFlowable` registers a document-outline entry
and notifies a `TOCEntry` (src/gh2pdf.py:207-226): exactly the flowables
that carry a style whose name is in `level_map`. -/
def tocEntryTexts (story : List Flowable) : List String :=
  story.filterMap (fun f =>
    match f.style with
    | none => none
    | some s => if (levelMap s).isSome then some f.text else none)

/-- The nominal (pre-clamp) outline levels of a story, in order. -/
def nominalLevels (story : List Flowable) : List Nat :=
  story.filterMap (fun f => f.style.bind levelMap)

/-- The clamping loop of `afterFlowable` (src/gh2pdf.py:219-227): with
`_last_outline_level` starting at `-1`, each nominal level is clamped to
`_last_outline_level + 1` when it exceeds it, registered, and becomes the
new `_last_outline_level`. -/
def clampLevels (last : Int) : List Nat → List Int
  | [] => []
  | l :: ls =>
      let lv : Int := if (l : Int) > last + 1 then last + 1 else (l : Int)
      lv :: clampLevels lv ls

/-- The sequence of outline/bookmark levels registered while building a
story: the clamp fold over the nominal levels, with initial
`_last_outline_level = -1` (src/gh2pdf.py:205,219-227). -/
def outlineLevels (story : List Flowable) : List Int :=
  clampLevels (-1) (nominalLevels story)

/-- The per-file part of the story built by `generate_pdf`
(src/gh2pdf.py:320-350): for each file, the directory headings from
`dirHeadGo`, the file heading (text `str(rel)`, i.e. the slash-joined
relative path), the rendered code block (style `"CodeBlock"`, both for
`XPreformatted` and `Preformatted`), and a `PageBreak` (no style).
`codeOf` abstracts the rendered, joined code lines of a file. -/
def fileSections (codeOf : List String → String) : List String → List (List String) → List Flowable
  | _, [] => []
  | current, rel :: rest =>
      let r := dirHeadEmit rel.dropLast current
      r.1.map (fun h => { style := some h.style, text := h.text })
        ++ { style := some (fileHeadingStyle rel), text := String.intercalate "/" rel }
        :: { style := some "CodeBlock", text := codeOf rel }
        :: ({ style := none, text := "PageBreak" } : Flowable)
        :: fileSections codeOf r.2 rest

/-- The headings emitted during per-file assembly (step 4 of the document
order): for each file its new directory headings followed by its file
heading, as (style name, text) pairs. -/
def sectionHeadings : List String → List (List String) → List (String × String)
  | _, [] => []
  | current, rel :: rest =>
      let r := dirHeadEmit rel.dropLast current
      r.1.map (fun h => (h.style, h.text))
        ++ (fileHeadingStyle rel, String.intercalate "/" rel)
        :: sectionHeadings r.2 rest

/-- The full story assembled by `generate_pdf` (src/gh2pdf.py:274-352):
title paragraph (style `"Title"`), two `"Normal"` paragraphs, a `Spacer`
(no style), the `"Heading1"` paragraph `"Directory"`, the tree text
(`Preformatted`, style `"CodeBlock"`), a `PageBreak`, the `"Heading1"`
paragraph `"Table of Contents"`, the `TableOfContents` flowable (no style),
a `PageBreak`, then the per-file sections. -/
def storyFlowables (repoName sourceLabel today treeText : String)
    (codeOf : List String → String) (files : List (List String)) : List Flowable :=
  [{ style := some "Title", text := "Repository: " ++ repoName },
   { style := some "Normal", text := "Source: " ++ sourceLabel },
   { style := some "Normal", text := "Generated: " ++ today },
   { style := none, text := "Spacer" },
   { style := some "Heading1", text := "Directory" },
   { style := some "CodeBlock", text := treeText },
   { style := none, text := "PageBreak" },
   { style := some "Heading1", text := "Table of Contents" },
   { style := none, text := "TableOfContents" },
   { style := none, text := "PageBreak" }]
  ++ fileSections codeOf [] files

/-- The body of `main` after source acquisition (src/gh2pdf.py:412-428):
build the tree text, collect the files, raise
`RuntimeError("No files found with the selected extensions.")` when the
list is empty (so `generate_pdf` is never reached and no output file is
written), otherwise build the document story. -/
def mainRun (fs : FSDir) (include_exts exclude_dirs : List String) (max_size_kb : Nat)
    (sourceLabel today : String) (codeOf : List String → String) :
    Except String (List Flowable) :=
  let treeText := build_tree fs include_exts exclude_dirs
  let files := collect_files fs include_exts exclude_dirs max_size_kb
  if files.isEmpty then Except.error "No files found with the selected extensions."
  else Except.ok (storyFlowables fs.dirName sourceLabel today treeText codeOf files)

/-- The observable outcome of one `main` run (src/gh2pdf.py:393-432). -/
structure RunOutcome where
  result : Except String (List Flowable)
  tempDirCreated : Bool
  removalInvoked : Bool
  tempDirRemains : Bool
deriving Repr

/-- `main` with its `try/finally` block (src/gh2pdf.py:399-432).  In the
remote case a temporary directory is created (`tempfile.mkdtemp`) before the
clone; `cloneOk` models whether the `git clone` subprocess exits zero
(otherwise `run` raises, src/gh2pdf.py:59-65).  The `finally` clause runs on
every exit path and calls `shutil.rmtree(temp_dir, ignore_errors=True)`
exactly when a temporary directory was created; `rmtreeOk` models whether
that removal itself succeeds, and with `ignore_errors=True` its failure
leaves the directory behind but never changes the result of the run. -/
def mainModel (isRemote cloneOk : Bool) (fs : FSDir)
    (include_exts exclude_dirs : List String) (max_size_kb : Nat)
    (sourceLabel today : String) (codeOf : List String → String)
    (rmtreeOk : Bool) : RunOutcome :=
  let tempCreated := isRemote
  let body : Except String (List Flowable) :=
    if isRemote && !cloneOk then Except.error "Command failed: git clone"
    else mainRun fs include_exts exclude_dirs max_size_kb sourceLabel today codeOf
  { result := body
    tempDirCreated := tempCreated
    removalInvoked := tempCreated
    tempDirRemains := tempCreated && !rmtreeOk }

/-- First index at which the open-segment list disagrees with the current
file's directory segments (the "first point of divergence" of the
directory-heading state machine, comparing the previous file's directory
segments to the current file's); `dirParts.length` when there is none. -/
def firstDiff : List String → List String → Nat
  | _, [] => 0
  | [], _ :: _ => 0
  | c :: cur, p :: dp => if c = p then firstDiff cur dp + 1 else 0

/-- Any prefix of `F` (a list of root-relative file paths) has a selected
file beneath directory `d` when `d` is a prefix of some file's directory
segments. -/
def blockHas (F : List (List String)) (d : List String) : Bool :=
  F.any (fun p => d.isPrefixOf p.dropLast)

mutual

/-- Well-formedness of the modelled filesystem: sibling directories have
pairwise distinct names (as they do on a real filesystem), recursively. -/
def WFdirB : FSDir → Bool
  | .node _ _ subs => ((subs.map FSDir.dirName).Nodup : Bool) && WFlistB subs

def WFlistB : List FSDir → Bool
  | [] => true
  | c :: cs => WFdirB c && WFlistB cs

end

/-! ### Lemmas about the markup escaping -/

theorem escapeList_cons (c : Char) (cs : List Char) :
    escapeList (c :: cs) = escapeChar c ++ escapeList cs := by
  simp [escapeList]

theorem escapeChar_length_pos (c : Char) : 1 ≤ (escapeChar c).length := by
  unfold escapeChar
  split
  · simp
  · split
    · simp
    · split <;> simp

theorem escapeList_length_le : ∀ cs : List Char, cs.length ≤ (escapeList cs).length := by
  intro cs
  induction cs with
  | nil => simp [escapeList]
  | cons c cs ih =>
    rw [escapeList_cons]
    have := escapeChar_length_pos c
    simp only [List.length_append, List.length_cons]
    omega

theorem escapeList_eq_self_iff (cs : List Char) :
    escapeList cs = cs ↔ noReserved cs = true := by
  induction cs with
  | nil => simp [escapeList, noReserved]
  | cons c cs ih =>
    rw [escapeList_cons]
    by_cases hc : c = '&' ∨ c = '<' ∨ c = '>'
    · have hlen : 4 ≤ (escapeChar c).length := by
        rcases hc with h | h | h <;> subst h <;> simp [escapeChar]
      have hnr : noReserved (c :: cs) = false := by
        rcases hc with h | h | h <;> subst h <;> simp [noReserved]
      rw [hnr]
      simp only [Bool.false_eq_true, iff_false]
      intro heq
      have hl := congrArg List.length heq
      simp only [List.length_append, List.length_cons] at hl
      have := escapeList_length_le cs
      omega
    · push_neg at hc
      have hch : escapeChar c = [c] := by
        simp [escapeChar, hc.1, hc.2.1, hc.2.2]
      rw [hch]
      simp only [List.cons_append, List.nil_append, List.cons.injEq, true_and]
      rw [ih]
      simp [noReserved, hc.1, hc.2.1, hc.2.2]

theorem amp_mem_escapeList : ∀ cs : List Char, noReserved cs = false → '&' ∈ escapeList cs := by
  intro cs
  induction cs with
  | nil => intro h; simp [noReserved] at h
  | cons c cs ih =>
    intro h
    rw [escapeList_cons]
    by_cases hc : c = '&' ∨ c = '<' ∨ c = '>'
    · rcases hc with h1 | h1 | h1 <;> subst h1 <;> simp [escapeChar]
    · push_neg at hc
      have : noReserved cs = false := by
        by_contra hcs
        have hcs : noReserved cs = true := by
          cases hx : noReserved cs
          · exact absurd hx hcs
          · rfl
        have : noReserved (c :: cs) = true := by
          simp [noReserved, hc.1, hc.2.1, hc.2.2] at hcs ⊢
          exact hcs
        rw [this] at h
        cases h
      exact List.mem_append_right _ (ih this)

theorem noReserved_false_of_amp (cs : List Char) (h : '&' ∈ cs) : noReserved cs = false := by
  cases hx : noReserved cs
  · rfl
  · simp only [noReserved, List.all_eq_true] at hx
    have := hx '&' h
    simp at this

/-- C2: the escaping of `build_code_lines` is NOT idempotent on
already-escaped text: escaping `"<"` yields `"&lt;"`, and escaping that
again yields `"&amp;lt;"`, because the ampersand introduced by the first
pass is itself a reserved character.  This refutes the claim at the
concrete already-escaped input `escape "<"`. -/
theorem C2_counterexample : escape (escape "<") ≠ escape "<" := by decide

/-- C2 (amended): applying the escaping a second time returns the string
unchanged exactly when the string contains none of the reserved characters
`&`, `<`, `>`; any string that does contain one — in particular any
already-escaped string, whose entities contain `&` — is changed again by a
second application (double-escaping does occur). -/
theorem C2_amended (s : String) :
    (escape s = s ↔ noReserved s.data = true)
    ∧ (noReserved s.data = false → escape (escape s) ≠ escape s) := by
  have key : ∀ t : String, escape t = t ↔ noReserved t.data = true := by
    intro t
    cases t with
    | mk cs => simpa [escape, String.ext_iff] using escapeList_eq_self_iff cs
  refine ⟨key s, ?_⟩
  intro h heq
  have h1 : '&' ∈ escapeList s.data := amp_mem_escapeList _ h
  have h2 : noReserved (escape s).data = false :=
    noReserved_false_of_amp _ (by simpa [escape] using h1)
  have := (key (escape s)).mp heq
  rw [h2] at this
  cases this

/-- Witness for the amended C2, at the concrete input `"<"`. -/
theorem C2_amended_witness :
    noReserved ("<".data) = false ∧ escape (escape "<") ≠ escape "<" :=
  ⟨by decide, (C2_amended "<").2 (by decide)⟩

/-! ### C7: the unhighlighted rendering path -/

/-- C7: with highlighting disabled (first conjunct) or with the
tokenizer import unavailable (second conjunct), `build_code_lines` yields
the input split on newlines with each line escaped, so in particular the
number of produced lines equals the number of elements of
`text.split("\n")` (third conjunct); no font/color markup is produced since
`escape` only inserts entity text. -/
theorem C7_plain_lines (pyg : Bool) (tokens : List (Option String × String)) (text : String) :
    build_code_lines pyg tokens text false = (text.splitOn "\n").map escape
    ∧ build_code_lines false tokens text true = (text.splitOn "\n").map escape
    ∧ (build_code_lines pyg tokens text false).length = (text.splitOn "\n").length := by
  refine ⟨rfl, rfl, ?_⟩
  simp [build_code_lines]

/-! ### C4: clamped outline levels never jump by more than one -/

theorem chain_clampLevels (ls : List Nat) :
    ∀ last : Int, List.Chain (fun a b => b ≤ a + 1) last (clampLevels last ls) := by
  induction ls with
  | nil => intro last; exact List.Chain.nil
  | cons l ls ih =>
    intro last
    by_cases h : (l : Int) > last + 1 <;>
      simp only [clampLevels, h, if_pos, if_neg, ite_true, ite_false] <;>
      exact List.Chain.cons (by omega) (ih _)

/-- C4: throughout document assembly, each registered outline/bookmark
level is at most one deeper than the previously registered one (with the
initial `_last_outline_level = -1`), for every story — i.e. for every
sequence of emitted headings. -/
theorem C4_outline_levels_clamped (story : List Flowable) :
    List.Chain (fun a b => b ≤ a + 1) (-1) (outlineLevels story) :=
  chain_clampLevels _ _

/-! ### C6: empty selection aborts the run before any output is built -/

/-- C6: when the selection is empty, `main` raises
`RuntimeError("No files found with the selected extensions.")` (the
`NoMatchingFilesError` of the specification) before `generate_pdf` is ever
called, so no document (and hence no output file) is produced. -/
theorem C6_empty_selection_fatal (fs : FSDir) (inc exc : List String) (maxKB : Nat)
    (sourceLabel today : String) (codeOf : List String → String)
    (h : collect_files fs inc exc maxKB = []) :
    mainRun fs inc exc maxKB sourceLabel today codeOf
        = Except.error "No files found with the selected extensions."
    ∧ ∀ story, mainRun fs inc exc maxKB sourceLabel today codeOf ≠ Except.ok story := by
  have h1 : mainRun fs inc exc maxKB sourceLabel today codeOf
      = Except.error "No files found with the selected extensions." := by
    simp [mainRun, h]
  exact ⟨h1, fun story hk => by rw [h1] at hk; cases hk⟩

/-- Witness for C6 at a concrete root with no accepted files. -/
theorem C6_witness :
    collect_files (FSDir.node "empty" [] []) [".py"] [] 512 = []
    ∧ mainRun (FSDir.node "empty" [] []) [".py"] [] 512 "src" "today" (fun _ => "")
        = Except.error "No files found with the selected extensions." :=
  ⟨by decide,
   (C6_empty_selection_fatal (FSDir.node "empty" [] []) [".py"] [] 512 "src" "today"
      (fun _ => "") (by decide)).1⟩

/-! ### C8: the ephemeral clone directory is cleaned up on every exit path -/

/-- C8: in the remote case the `finally` clause invokes the removal of the
temporary directory on every exit path (success, clone failure, empty
selection — the first conjunct holds for every `cloneOk` and every
filesystem); the run's result is the same whether the removal succeeds or
fails (second conjunct: a removal failure is swallowed by
`ignore_errors=True` and never surfaces); and when the removal succeeds the
directory is gone (third conjunct). -/
theorem C8_cleanup_every_path (cloneOk rmtreeOk : Bool) (fs : FSDir)
    (inc exc : List String) (maxKB : Nat) (sourceLabel today : String)
    (codeOf : List String → String) :
    (mainModel true cloneOk fs inc exc maxKB sourceLabel today codeOf rmtreeOk).removalInvoked = true
    ∧ (mainModel true cloneOk fs inc exc maxKB sourceLabel today codeOf rmtreeOk).result
        = (mainModel true cloneOk fs inc exc maxKB sourceLabel today codeOf true).result
    ∧ (rmtreeOk = true →
        (mainModel true cloneOk fs inc exc maxKB sourceLabel today codeOf rmtreeOk).tempDirRemains
          = false) := by
  refine ⟨rfl, rfl, ?_⟩
  intro h
  subst h
  rfl

/-- Witness for C8 at a concrete failed clone with successful removal. -/
theorem C8_witness :
    (mainModel true false (FSDir.node "r" [] []) [".py"] [] 512 "u" "t" (fun _ => "")
        true).removalInvoked = true
    ∧ (mainModel true false (FSDir.node "r" [] []) [".py"] [] 512 "u" "t" (fun _ => "")
        true).tempDirRemains = false :=
  ⟨(C8_cleanup_every_path false true (FSDir.node "r" [] []) [".py"] [] 512 "u" "t"
      (fun _ => "")).1,
   (C8_cleanup_every_path false true (FSDir.node "r" [] []) [".py"] [] 512 "u" "t"
      (fun _ => "")).2.2 rfl⟩

/-! ### C9 and C10: heading texts and file heading levels -/

theorem dirHeadLoop_mem (todo : List String) :
    ∀ pre current, ∀ hd ∈ (dirHeadLoop pre todo current).1,
      hd.text = String.intercalate "/" hd.parts
      ∧ ∃ e, e ≠ [] ∧ e <+: todo ∧ hd.parts = pre ++ e := by
  induction todo with
  | nil => intro pre current hd hmem; simp [dirHeadLoop] at hmem
  | cons part todo ih =>
    intro pre current hd hmem
    by_cases hc : current[pre.length]? = some part
    · simp only [dirHeadLoop, hc, if_pos] at hmem
      obtain ⟨htext, e, hne, hpref, heq⟩ := ih (pre ++ [part]) current hd hmem
      exact ⟨htext, part :: e, by simp,
        (List.cons_prefix_cons).mpr ⟨rfl, hpref⟩, by simpa [List.append_assoc] using heq⟩
    · simp only [dirHeadLoop, hc, if_neg, if_false, List.mem_cons] at hmem
      rcases hmem with hmem | hmem
      · subst hmem
        exact ⟨rfl, [part], by simp, (List.cons_prefix_cons).mpr ⟨rfl, List.nil_prefix⟩, rfl⟩
      · obtain ⟨htext, e, hne, hpref, heq⟩ := ih (pre ++ [part]) (pre ++ [part]) hd hmem
        exact ⟨htext, part :: e, by simp,
          (List.cons_prefix_cons).mpr ⟨rfl, hpref⟩, by simpa [List.append_assoc] using heq⟩

/-- C9: every directory heading carries as its paragraph text the full
slash-joined relative path of the directory it announces — a nonempty
prefix of the file's directory segments — not merely the directory's base
name. -/
theorem C9_heading_full_path (dirParts current : List String) :
    ∀ hd ∈ (dirHeadEmit dirParts current).1,
      hd.text = String.intercalate "/" hd.parts ∧ hd.parts ≠ [] ∧ hd.parts <+: dirParts := by
  intro hd hmem
  obtain ⟨htext, e, hne, hpref, heq⟩ := dirHeadLoop_mem dirParts [] current hd hmem
  simp only [List.nil_append] at heq
  subst heq
  exact ⟨htext, hne, hpref⟩

/-- Witness for C9: for a file under directory `b` inside directory `a`,
the heading for `b` has text `"a/b"`. -/
theorem C9_witness :
    (⟨"Heading2", ["a", "b"], "a/b"⟩ : DirHeading) ∈ (dirHeadEmit ["a", "b"] []).1
    ∧ (⟨"Heading2", ["a", "b"], "a/b"⟩ : DirHeading).text
        = String.intercalate "/" (⟨"Heading2", ["a", "b"], "a/b"⟩ : DirHeading).parts
    ∧ (⟨"Heading2", ["a", "b"], "a/b"⟩ : DirHeading).parts ≠ []
    ∧ (⟨"Heading2", ["a", "b"], "a/b"⟩ : DirHeading).parts <+: ["a", "b"] :=
  ⟨by decide, C9_heading_full_path ["a", "b"] [] ⟨"Heading2", ["a", "b"], "a/b"⟩ (by decide)⟩

/-- C10: a file's heading level depends only on its directory depth — the
nominal outline level of the file heading is `2` (i.e. `"Heading3"`) for
two or more directory segments and `1` (i.e. `"Heading2"`) otherwise; and a
file directly in the repository root gets a `"Heading2"` file heading with
no directory heading emitted before it. -/
theorem C10_file_heading_depth (current rel : List String) :
    levelMap (fileHeadingStyle rel) = some (if 2 ≤ rel.dropLast.length then 2 else 1)
    ∧ (rel.dropLast = [] →
        fileHeadingStyle rel = "Heading2" ∧ (dirHeadEmit rel.dropLast current).1 = []) := by
  constructor
  · unfold fileHeadingStyle
    by_cases h : 2 ≤ rel.dropLast.length
    · rw [if_pos h, if_pos h]; rfl
    · rw [if_neg h, if_neg h]; rfl
  · intro h
    rw [h]
    exact ⟨by simp [fileHeadingStyle, h], rfl⟩

/-- Witness for C10 at a root-level file. -/
theorem C10_witness :
    levelMap (fileHeadingStyle ["main.py"]) = some 1
    ∧ fileHeadingStyle ["main.py"] = "Heading2"
    ∧ (dirHeadEmit (["main.py"] : List String).dropLast []).1 = [] := by
  have h := C10_file_heading_depth [] ["main.py"]
  exact ⟨by simpa using h.1, (h.2 (by decide)).1, (h.2 (by decide)).2⟩

/-! ### C1: tree text versus content file list -/

theorem mem_insertByName (f a : FSFile) : ∀ l : List FSFile,
    a ∈ insertByName f l ↔ a = f ∨ a ∈ l := by
  intro l
  induction l with
  | nil => simp [insertByName]
  | cons g gs ih =>
    by_cases h : g.name < f.name
    · simp [insertByName, h, ih, or_left_comm]
    · simp [insertByName, h]

theorem mem_sortFiles (a : FSFile) : ∀ l : List FSFile, a ∈ sortFiles l ↔ a ∈ l := by
  intro l
  induction l with
  | nil => simp [sortFiles]
  | cons f fs ih => simp [sortFiles, mem_insertByName, ih]

/-- `collect_files`'s per-directory selection is the tree's per-directory
selection further filtered by the stat/size conditions (the two functions
share the extension test and the sort). -/
theorem collectDirFiles_eq (inc : List String) (maxKB : Nat) (files : List FSFile) :
    collectDirFiles inc maxKB files
      = (treeDirFiles inc files).filter
          (fun f => f.statOk && !(decide (maxKB * 1024 < f.size))) := by
  unfold collectDirFiles treeDirFiles
  rw [List.filter_filter]
  congr 1
  funext f
  cases extOk inc f <;> cases f.statOk <;> simp

theorem flatMap_sublist_flatMap {α β : Type} (L : List α) (F G : α → List β)
    (h : ∀ e ∈ L, (F e).Sublist (G e)) : (L.flatMap F).Sublist (L.flatMap G) := by
  induction L with
  | nil => simp
  | cons e L ih =>
    simp only [List.flatMap_cons]
    exact (h e (by simp)).append (ih (fun x hx => h x (by simp [hx])))

theorem flatMap_congr_mem {α β : Type} (L : List α) (F G : α → List β)
    (h : ∀ e ∈ L, F e = G e) : L.flatMap F = L.flatMap G := by
  induction L with
  | nil => simp
  | cons e L ih =>
    simp only [List.flatMap_cons]
    rw [h e (by simp), ih (fun x hx => h x (by simp [hx]))]

mutual

/-- Every directory visited by the pruned walk sits at a relative path none
of whose segments is an excluded directory name. -/
theorem walkTree_rel_spec (exc r : List String) (T : FSDir) :
    ∀ e ∈ walkTree exc r T, ∃ extra, e.1 = r ++ extra ∧ ∀ s ∈ extra, exc.contains s = false :=
  match T with
  | .node _ files subs => by
    intro e he
    rw [walkTree, List.mem_cons] at he
    rcases he with he | he
    · exact ⟨[], by simp [he], by simp⟩
    · exact walkList_rel_spec exc r subs e he

theorem walkList_rel_spec (exc r : List String) (ds : List FSDir) :
    ∀ e ∈ walkList exc r ds, ∃ extra, e.1 = r ++ extra ∧ ∀ s ∈ extra, exc.contains s = false :=
  match ds with
  | [] => by intro e he; rw [walkList] at he; cases he
  | d :: ds => by
    intro e he
    rw [walkList, List.mem_append] at he
    rcases he with he | he
    · by_cases hx : exc.contains d.dirName
      · rw [if_pos hx] at he; cases he
      · rw [if_neg hx] at he
        obtain ⟨extra, heq, hall⟩ := walkTree_rel_spec exc (r ++ [d.dirName]) d e he
        refine ⟨d.dirName :: extra, by simp [heq], ?_⟩
        intro s hs
        rcases List.mem_cons.mp hs with hs | hs
        · subst hs
          cases hc : exc.contains d.dirName
          · rfl
          · exact absurd hc hx
        · exact hall s hs
    · exact walkList_rel_spec exc r ds e he

end

mutual

/-- Every file of the modelled filesystem passes the stat and size tests. -/
def allOkB (maxKB : Nat) : FSDir → Bool
  | .node _ files subs =>
      files.all (fun f => f.statOk && !(decide (maxKB * 1024 < f.size))) && allOkListB maxKB subs

def allOkListB (maxKB : Nat) : List FSDir → Bool
  | [] => true
  | d :: ds => allOkB maxKB d && allOkListB maxKB ds

end

mutual

theorem walkTree_allOk (maxKB : Nat) (exc r : List String) (T : FSDir)
    (hT : allOkB maxKB T = true) :
    ∀ e ∈ walkTree exc r T, ∀ f ∈ e.2,
      (f.statOk && !(decide (maxKB * 1024 < f.size))) = true :=
  match T with
  | .node _ files subs => by
    rw [allOkB, Bool.and_eq_true] at hT
    intro e he
    rw [walkTree, List.mem_cons] at he
    rcases he with he | he
    · subst he
      intro f hf
      exact List.all_eq_true.mp hT.1 f hf
    · exact walkList_allOk maxKB exc r subs hT.2 e he

theorem walkList_allOk (maxKB : Nat) (exc r : List String) (ds : List FSDir)
    (hds : allOkListB maxKB ds = true) :
    ∀ e ∈ walkList exc r ds, ∀ f ∈ e.2,
      (f.statOk && !(decide (maxKB * 1024 < f.size))) = true :=
  match ds with
  | [] => by intro e he; rw [walkList] at he; cases he
  | d :: ds => by
    rw [allOkListB, Bool.and_eq_true] at hds
    intro e he
    rw [walkList, List.mem_append] at he
    rcases he with he | he
    · by_cases hx : exc.contains d.dirName
      · rw [if_pos hx] at he; cases he
      · rw [if_neg hx] at he
        exact walkTree_allOk maxKB exc (r ++ [d.dirName]) d hds.1 e he
    · exact walkList_allOk maxKB exc r ds hds.2 e he

end

/-- C1 (amended): (1) every file selected for content sections appears (in
order) among the files listed in the tree text; (2) no file under an
excluded directory appears in the tree text — by (1), in neither; (3) the
two sets coincide when every file passes the stat and size conditions, so
the discrepancy is exactly that the size ceiling and the stat check are
applied only to the content list, not to the tree text. -/
theorem C1_amended (root : FSDir) (inc exc : List String) (maxKB : Nat) :
    (collect_files root inc exc maxKB).Sublist (treeListedFiles root inc exc)
    ∧ (∀ p ∈ treeListedFiles root inc exc, ∀ s ∈ p.dropLast, exc.contains s = false)
    ∧ (allOkB maxKB root = true →
        collect_files root inc exc maxKB = treeListedFiles root inc exc) := by
  refine ⟨?_, ?_, ?_⟩
  · unfold collect_files treeListedFiles
    apply flatMap_sublist_flatMap
    intro e he
    rw [collectDirFiles_eq]
    exact (List.filter_sublist _).map _
  · intro p hp
    unfold treeListedFiles at hp
    rw [List.mem_flatMap] at hp
    obtain ⟨e, he, hf⟩ := hp
    rw [List.mem_map] at hf
    obtain ⟨f, hfmem, hfeq⟩ := hf
    obtain ⟨extra, heq, hall⟩ := walkTree_rel_spec exc [] root e he
    subst hfeq
    rw [List.dropLast_concat, heq]
    simpa using hall
  · intro hall
    unfold collect_files treeListedFiles
    apply flatMap_congr_mem
    intro e he
    rw [collectDirFiles_eq]
    congr 1
    rw [List.filter_eq_self]
    intro f hf
    have hf2 : f ∈ e.2 := by
      rw [treeDirFiles] at hf
      have := (List.mem_filter.mp hf).1
      exact (mem_sortFiles f _).mp this
    exact walkTree_allOk maxKB exc [] root hall e he f hf2

/-- C1 counterexample: a file above the size ceiling is listed in the tree
text but absent from the content file list, so the two sets differ — the
size-ceiling filter is NOT applied to the tree text. -/
theorem C1_counterexample :
    ¬ (∀ p, p ∈ treeListedFiles (FSDir.node "repo" [⟨"big.py", 1024 * 1024, true⟩] []) [".py"] []
          ↔ p ∈ collect_files (FSDir.node "repo" [⟨"big.py", 1024 * 1024, true⟩] []) [".py"] [] 512) := by
  intro hall
  have h1 : (["big.py"] : List String)
      ∈ treeListedFiles (FSDir.node "repo" [⟨"big.py", 1024 * 1024, true⟩] []) [".py"] [] := by
    decide
  have h2 := (hall ["big.py"]).mp h1
  have h3 : (["big.py"] : List String)
      ∉ collect_files (FSDir.node "repo" [⟨"big.py", 1024 * 1024, true⟩] []) [".py"] [] 512 := by
    decide
  exact h3 h2

/-- Witness for the amended C1 at a concrete filesystem on which every file
passes the stat and size conditions. -/
theorem C1_amended_witness :
    allOkB 512 (FSDir.node "r" [⟨"a.py", 10, true⟩] [FSDir.node "s" [⟨"b.py", 20, true⟩] []]) = true
    ∧ collect_files (FSDir.node "r" [⟨"a.py", 10, true⟩] [FSDir.node "s" [⟨"b.py", 20, true⟩] []])
          [".py"] ["node_modules"] 512
        = treeListedFiles (FSDir.node "r" [⟨"a.py", 10, true⟩] [FSDir.node "s" [⟨"b.py", 20, true⟩] []])
          [".py"] ["node_modules"] :=
  ⟨by decide,
   (C1_amended (FSDir.node "r" [⟨"a.py", 10, true⟩] [FSDir.node "s" [⟨"b.py", 20, true⟩] []])
      [".py"] ["node_modules"] 512).2.2 (by decide)⟩

/-! ### C5: which flowables populate the table of contents -/

theorem dirHeadLoop_styles (todo : List String) :
    ∀ pre current, ∀ hd ∈ (dirHeadLoop pre todo current).1,
      hd.style = "Heading1" ∨ hd.style = "Heading2" := by
  induction todo with
  | nil => intro pre current hd hmem; simp [dirHeadLoop] at hmem
  | cons part todo ih =>
    intro pre current hd hmem
    by_cases hc : current[pre.length]? = some part
    · simp only [dirHeadLoop, hc, if_pos] at hmem
      exact ih (pre ++ [part]) current hd hmem
    · simp only [dirHeadLoop, hc, if_neg, if_false, List.mem_cons] at hmem
      rcases hmem with hmem | hmem
      · subst hmem
        by_cases hl : pre.length = 0
        · exact Or.inl (by simp [hl])
        · exact Or.inr (by simp [hl])
      · exact ih (pre ++ [part]) (pre ++ [part]) hd hmem

theorem tocEntryTexts_append (a b : List Flowable) :
    tocEntryTexts (a ++ b) = tocEntryTexts a ++ tocEntryTexts b := by
  simp [tocEntryTexts, List.filterMap_append]

theorem tocEntryTexts_dirHeadings (l : List DirHeading)
    (h : ∀ hd ∈ l, hd.style = "Heading1" ∨ hd.style = "Heading2") :
    tocEntryTexts (l.map (fun hd => { style := some hd.style, text := hd.text }))
      = l.map DirHeading.text := by
  induction l with
  | nil => rfl
  | cons hd l ih =>
    simp only [List.map_cons]
    have hst := h hd (by simp)
    have hrest := ih (fun x hx => h x (by simp [hx]))
    simp only [tocEntryTexts, List.filterMap_map] at hrest ⊢
    have hlv : (levelMap hd.style).isSome = true := by
      rcases hst with hst | hst <;> rw [hst] <;> rfl
    simp [List.filterMap_cons, hlv, hrest, Function.comp]

theorem tocEntryTexts_fileSections (codeOf : List String → String) :
    ∀ (files : List (List String)) (current : List String),
      tocEntryTexts (fileSections codeOf current files)
        = (sectionHeadings current files).map Prod.snd := by
  intro files
  induction files with
  | nil => intro current; rfl
  | cons rel rest ih =>
    intro current
    simp only [fileSections, sectionHeadings]
    rw [show ({ style := some (fileHeadingStyle rel), text := String.intercalate "/" rel }
          :: { style := some "CodeBlock", text := codeOf rel }
          :: ({ style := none, text := "PageBreak" } : Flowable)
          :: fileSections codeOf (dirHeadEmit rel.dropLast current).2 rest)
        = [{ style := some (fileHeadingStyle rel), text := String.intercalate "/" rel },
           { style := some "CodeBlock", text := codeOf rel },
           ({ style := none, text := "PageBreak" } : Flowable)]
          ++ fileSections codeOf (dirHeadEmit rel.dropLast current).2 rest from rfl]
    rw [tocEntryTexts_append, tocEntryTexts_append]
    rw [tocEntryTexts_dirHeadings ((dirHeadEmit rel.dropLast current).1)
      (dirHeadLoop_styles rel.dropLast [] current)]
    rw [ih]
    have hmid : tocEntryTexts
        [{ style := some (fileHeadingStyle rel), text := String.intercalate "/" rel },
         { style := some "CodeBlock", text := codeOf rel },
         ({ style := none, text := "PageBreak" } : Flowable)]
        = [String.intercalate "/" rel] := by
      unfold fileHeadingStyle
      by_cases h2 : 2 ≤ rel.dropLast.length
      · rw [if_pos h2]; rfl
      · rw [if_neg h2]; rfl
    rw [hmid]
    simp [sectionHeadings]

/-- C5 (amended): the table of contents is populated by the headings of the
per-file sections (every directory heading and every file heading) AND,
additionally, by the two front-matter section headings `"Directory"` and
`"Table of Contents"`, which also carry the `"Heading1"` style; no other
document content (title, normal paragraphs, code blocks, spacers, page
breaks, the TOC flowable itself) produces an entry. -/
theorem C5_amended (repoName sourceLabel today treeText : String)
    (codeOf : List String → String) (files : List (List String)) :
    tocEntryTexts (storyFlowables repoName sourceLabel today treeText codeOf files)
      = "Directory" :: "Table of Contents" :: (sectionHeadings [] files).map Prod.snd := by
  unfold storyFlowables
  rw [tocEntryTexts_append, tocEntryTexts_fileSections]
  rfl

/-- C5 counterexample: for a run over a single root-level file, the
`"Directory"` front-matter heading receives a TOC entry although it is not
one of the headings emitted during per-file assembly, so the TOC is not
populated by exactly the step-4 headings. -/
theorem C5_counterexample :
    ¬ (∀ t, t ∈ tocEntryTexts (storyFlowables "repo" "src" "2026-01-01" "TREE"
            (fun _ => "code") [["a.py"]])
          ↔ t ∈ (sectionHeadings [] [["a.py"]]).map Prod.snd) := by
  intro hall
  have h1 : "Directory" ∈ tocEntryTexts (storyFlowables "repo" "src" "2026-01-01" "TREE"
      (fun _ => "code") [["a.py"]]) := by decide
  have h2 := (hall "Directory").mp h1
  have h3 : "Directory" ∉ (sectionHeadings [] [["a.py"]]).map Prod.snd := by decide
  exact h3 h2

/-! ### C3: one directory heading per directory with a selected file -/

/-- After the inner loop, `current_dir_parts` is unchanged when the file's
remaining directory segments were already open, and is reset to the file's
directory segments otherwise. -/
theorem dirHeadLoop_snd (todo : List String) :
    ∀ pre current : List String,
      (dirHeadLoop pre todo current).2
        = if todo <+: current.drop pre.length then current else pre ++ todo := by
  induction todo with
  | nil => intro pre current; simp [dirHeadLoop, List.nil_prefix]
  | cons part todo ih =>
    intro pre current
    by_cases hc : current[pre.length]? = some part
    · have hhead : (current.drop pre.length).head? = some part := by
        rw [List.head?_drop]; exact hc
      obtain ⟨rest, hrest⟩ : ∃ rest, current.drop pre.length = part :: rest := by
        cases hcur : current.drop pre.length with
        | nil => rw [hcur] at hhead; cases hhead
        | cons c r =>
          rw [hcur] at hhead
          simp only [List.head?_cons, Option.some.injEq] at hhead
          exact ⟨r, by rw [hhead]⟩
      have hrest2 : current.drop (pre.length + 1) = rest := by
        have : (current.drop pre.length).drop 1 = current.drop (pre.length + 1) :=
          List.drop_drop 1 pre.length current
        rw [hrest] at this
        simpa using this.symm
      simp only [dirHeadLoop, hc, if_pos]
      rw [ih (pre ++ [part]) current]
      simp only [List.length_append, List.length_cons, List.length_nil, hrest2, hrest]
      by_cases hp : todo <+: rest
      · rw [if_pos hp, if_pos ((List.cons_prefix_cons).mpr ⟨rfl, hp⟩)]
      · rw [if_neg hp, if_neg (fun hcontra => hp ((List.cons_prefix_cons).mp hcontra).2)]
        simp
    · have hne : ¬ part :: todo <+: current.drop pre.length := by
        intro hcontra
        have hhead : (current.drop pre.length).head? = some part := by
          cases hcur : current.drop pre.length with
          | nil =>
            rw [hcur] at hcontra
            cases (List.prefix_nil).mp hcontra
          | cons c r =>
            rw [hcur] at hcontra
            have := ((List.cons_prefix_cons).mp hcontra).1
            simp [this]
        rw [List.head?_drop] at hhead
        exact hc hhead
      simp only [dirHeadLoop, hc, if_neg, if_false]
      rw [ih (pre ++ [part]) (pre ++ [part]), List.drop_length]
      by_cases ht : todo <+: ([] : List String)
      · rw [if_pos ht, if_neg hne, (List.prefix_nil).mp ht]
      · rw [if_neg ht, if_neg hne]
        simp

/-- Counting lemma for the inner loop: a directory path `d` is announced by
the loop over remaining segments `todo` (with processed prefix `pre` and
open list `current`) exactly once when `d` extends `pre` into `todo` and is
not already open in `current`, and never otherwise. -/
theorem dirHeadLoop_count (todo : List String) :
    ∀ pre current d : List String,
      ((dirHeadLoop pre todo current).1.map DirHeading.parts).count d
        = if pre.length < d.length ∧ pre <+: d ∧ d.drop pre.length <+: todo
              ∧ ¬ d.drop pre.length <+: current.drop pre.length
          then 1 else 0 := by
  induction todo with
  | nil =>
    intro pre current d
    simp only [dirHeadLoop, List.map_nil, List.count_nil]
    rw [if_neg]
    rintro ⟨h1, _, h3, _⟩
    have := (List.drop_eq_nil_iff).mp ((List.prefix_nil).mp h3)
    omega
  | cons part todo ih =>
    intro pre current d
    by_cases hc : current[pre.length]? = some part
    · -- the segment is already open: skip, recurse with pre ++ [part]
      have hhead : (current.drop pre.length).head? = some part := by
        rw [List.head?_drop]; exact hc
      obtain ⟨rest, hrest⟩ : ∃ rest, current.drop pre.length = part :: rest := by
        cases hcur : current.drop pre.length with
        | nil => rw [hcur] at hhead; cases hhead
        | cons c r =>
          rw [hcur] at hhead
          simp only [List.head?_cons, Option.some.injEq] at hhead
          exact ⟨r, by rw [hhead]⟩
      have hrest2 : current.drop (pre.length + 1) = rest := by
        have h12 : (current.drop pre.length).drop 1 = current.drop (pre.length + 1) :=
          List.drop_drop 1 pre.length current
        rw [hrest] at h12
        simpa using h12.symm
      simp only [dirHeadLoop, hc, if_pos]
      rw [ih (pre ++ [part]) current d]
      have hlen : (pre ++ [part]).length = pre.length + 1 := by simp
      rw [hlen]
      refine if_congr ?_ rfl rfl
      constructor
      · rintro ⟨h1', h2', h3', h4'⟩
        obtain ⟨t', rfl⟩ := h2'
        have hq' : ((pre ++ [part]) ++ t').drop (pre.length + 1) = t' :=
          List.drop_left' (by simp)
        rw [hq'] at h3' h4'
        have hdr : ((pre ++ [part]) ++ t').drop pre.length = part :: t' := by
          rw [show (pre ++ [part]) ++ t' = pre ++ (part :: t') from by simp]
          exact List.drop_left pre (part :: t')
        rw [hrest2] at h4'
        refine ⟨by simp, ⟨part :: t', by simp⟩, ?_, ?_⟩
        · rw [hdr]
          exact (List.cons_prefix_cons).mpr ⟨rfl, h3'⟩
        · rw [hdr, hrest]
          intro hx
          exact h4' ((List.cons_prefix_cons).mp hx).2
      · rintro ⟨h1, h2, h3, h4⟩
        obtain ⟨t, rfl⟩ := h2
        have hdrop : (pre ++ t).drop pre.length = t := List.drop_left pre t
        rw [hdrop] at h3 h4
        have ht : 0 < t.length := by
          have := congrArg List.length (rfl : pre ++ t = pre ++ t)
          simp only [List.length_append] at h1
          omega
        cases t with
        | nil => simp at ht
        | cons a t' =>
          obtain ⟨rfl, ht'⟩ := (List.cons_prefix_cons).mp h3
          have ht'ne : t' ≠ [] := by
            rintro rfl
            rw [hrest] at h4
            exact h4 ((List.cons_prefix_cons).mpr ⟨rfl, List.nil_prefix⟩)
          have hq : (pre ++ a :: t').drop (pre.length + 1) = t' := by
            rw [show pre ++ a :: t' = (pre ++ [a]) ++ t' from by simp]
            exact List.drop_left' (by simp)
          refine ⟨?_, ⟨t', by simp⟩, ?_, ?_⟩
          · simp only [List.length_append, List.length_cons]
            have : 0 < t'.length := List.length_pos.mpr ht'ne
            omega
          · rw [hq]; exact ht'
          · rw [hq, hrest2]
            intro hx
            rw [hrest] at h4
            exact h4 ((List.cons_prefix_cons).mpr ⟨rfl, hx⟩)
    · -- divergence: emit pre ++ [part] here, recurse with open list pre ++ [part]
      have notpref : ∀ x : List String, ¬ part :: x <+: current.drop pre.length := by
        intro x hcontra
        apply hc
        rw [← List.head?_drop]
        cases hcur : current.drop pre.length with
        | nil => rw [hcur] at hcontra; cases (List.prefix_nil).mp hcontra
        | cons c r =>
          rw [hcur] at hcontra
          have hce := ((List.cons_prefix_cons).mp hcontra).1
          rw [hce]
          rfl
      simp only [dirHeadLoop, hc, if_neg, if_false, List.map_cons, List.count_cons]
      rw [ih (pre ++ [part]) (pre ++ [part]) d]
      have hlen : (pre ++ [part]).length = pre.length + 1 := by simp
      rw [List.drop_length, hlen]
      by_cases hd2 : d = pre ++ [part]
      · subst hd2
        rw [if_neg (by intro h; exact absurd h.1 (by simp))]
        have hcond : pre.length < (pre ++ [part]).length ∧ pre <+: pre ++ [part]
            ∧ (pre ++ [part]).drop pre.length <+: part :: todo
            ∧ ¬ (pre ++ [part]).drop pre.length <+: current.drop pre.length := by
          refine ⟨by simp, ⟨[part], rfl⟩, ?_, ?_⟩
          · rw [List.drop_left pre [part]]
            exact (List.cons_prefix_cons).mpr ⟨rfl, List.nil_prefix⟩
          · rw [List.drop_left pre [part]]
            exact notpref []
        rw [if_pos hcond]
        simp
      · have head0 : ((pre ++ [part]) == d) = false := by
          simp only [beq_eq_false_iff_ne, ne_eq]
          exact fun h => hd2 h.symm
        rw [head0]
        rw [if_neg (by simp : ¬ false = true), Nat.add_zero]
        refine (if_congr ?_ rfl rfl)
        constructor
        · rintro ⟨h1', h2', h3', _⟩
          obtain ⟨t', rfl⟩ := h2'
          have hq' : ((pre ++ [part]) ++ t').drop (pre.length + 1) = t' :=
            List.drop_left' (by simp)
          rw [hq'] at h3'
          have hdr : ((pre ++ [part]) ++ t').drop pre.length = part :: t' := by
            rw [show (pre ++ [part]) ++ t' = pre ++ (part :: t') from by simp]
            exact List.drop_left pre (part :: t')
          refine ⟨by simp, ⟨part :: t', by simp⟩, ?_, ?_⟩
          · rw [hdr]
            exact (List.cons_prefix_cons).mpr ⟨rfl, h3'⟩
          · rw [hdr]
            exact notpref t'
        · rintro ⟨h1, h2, h3, _⟩
          obtain ⟨t, rfl⟩ := h2
          have hdrop : (pre ++ t).drop pre.length = t := List.drop_left pre t
          rw [hdrop] at h3
          have ht : 0 < t.length := by
            simp only [List.length_append] at h1
            omega
          cases t with
          | nil => simp at ht
          | cons a t' =>
            obtain ⟨ha, ht'⟩ := (List.cons_prefix_cons).mp h3
            subst ha
            have ht'ne : t' ≠ [] := by
              rintro rfl
              exact hd2 (by simp)
            have hq : (pre ++ a :: t').drop (pre.length + 1) = t' := by
              rw [show pre ++ a :: t' = (pre ++ [a]) ++ t' from by simp]
              exact List.drop_left' (by simp)
            refine ⟨?_, ⟨t', by simp⟩, ?_, ?_⟩
            · simp only [List.length_append, List.length_cons]
              have : 0 < t'.length := List.length_pos.mpr ht'ne
              omega
            · rw [hq]; exact ht'
            · rw [hq]
              intro hx
              exact ht'ne ((List.prefix_nil).mp hx)

/-- Per-file counting: the loop over one file's `dir_parts` announces each
nonempty prefix of them that is not already open, exactly once. -/
theorem dirHeadEmit_count (dp cur d : List String) :
    ((dirHeadEmit dp cur).1.map DirHeading.parts).count d
      = if d <+: dp ∧ ¬ d <+: cur then 1 else 0 := by
  rw [dirHeadEmit, dirHeadLoop_count dp [] cur d]
  refine if_congr ?_ rfl rfl
  constructor
  · rintro ⟨_, _, h3, h4⟩
    exact ⟨by simpa using h3, by simpa using h4⟩
  · rintro ⟨h1, h2⟩
    refine ⟨?_, List.nil_prefix, by simpa using h1, by simpa using h2⟩
    rcases Nat.eq_zero_or_pos d.length with hz | hp
    · exact absurd (by rw [List.length_eq_zero.mp hz]; exact List.nil_prefix) h2
    · simpa using hp

/-- Per-file final state: `current_dir_parts` is unchanged when the file's
directory segments were already open, and becomes the file's directory
segments otherwise. -/
theorem dirHeadEmit_snd (dp cur : List String) :
    (dirHeadEmit dp cur).2 = if dp <+: cur then cur else dp := by
  rw [dirHeadEmit, dirHeadLoop_snd dp [] cur]
  simp

/-- The first point of divergence characterizes openness: for a prefix `d`
of the current file's directory segments, `d` lies beyond the divergence
point exactly when `d` is not already open. -/
theorem firstDiff_lt_iff (d : List String) : ∀ cur dp : List String, d <+: dp →
    (firstDiff cur dp < d.length ↔ ¬ d <+: cur) := by
  induction d with
  | nil =>
    intro cur dp _
    simp [List.nil_prefix]
  | cons x d ih =>
    intro cur dp hpre
    cases dp with
    | nil => cases (List.prefix_nil).mp hpre
    | cons p dp' =>
      obtain ⟨rfl, hd⟩ := (List.cons_prefix_cons).mp hpre
      cases cur with
      | nil =>
        constructor
        · intro _ hcontra
          cases (List.prefix_nil).mp hcontra
        · intro _
          simp [firstDiff]
      | cons c cur' =>
        simp only [firstDiff]
        by_cases hc : c = x
        · rw [if_pos hc]
          subst hc
          constructor
          · intro hlt hcontra
            exact ((ih cur' dp' hd).mp (by simpa using hlt))
              ((List.cons_prefix_cons).mp hcontra).2
          · intro hnp
            have : ¬ d <+: cur' := fun hx => hnp ((List.cons_prefix_cons).mpr ⟨rfl, hx⟩)
            have := (ih cur' dp' hd).mpr this
            simpa using this
        · rw [if_neg hc]
          constructor
          · intro _ hcontra
            exact hc ((List.cons_prefix_cons).mp hcontra).1.symm
          · intro _
            simp

/-- Membership form of the per-file state machine: a directory path is
announced for this file exactly when it is a prefix of the file's directory
segments extending past the first point of divergence. -/
theorem dirHeadEmit_mem_iff (dp cur d : List String) :
    d ∈ (dirHeadEmit dp cur).1.map DirHeading.parts
      ↔ d <+: dp ∧ firstDiff cur dp < d.length := by
  rw [← List.count_pos_iff, dirHeadEmit_count]
  by_cases h : d <+: dp ∧ ¬ d <+: cur
  · rw [if_pos h]
    simp only [Nat.lt_irrefl, Nat.zero_lt_one, true_iff]
    exact ⟨h.1, (firstDiff_lt_iff d cur dp h.1).mpr h.2⟩
  · rw [if_neg h]
    simp only [Nat.lt_irrefl, false_iff]
    rintro ⟨hp, hlt⟩
    exact h ⟨hp, (firstDiff_lt_iff d cur dp hp).mp hlt⟩

/-- `F` has a selected file beneath directory path `d`. -/
def hasFB (F : List (List String)) (d : List String) : Prop :=
  ∃ p ∈ F, d <+: p.dropLast

instance hasFB_decidable (F : List (List String)) (d : List String) : Decidable (hasFB F d) :=
  List.decidableBEx _ F

theorem hasFB_append (F1 F2 : List (List String)) (d : List String) :
    hasFB (F1 ++ F2) d ↔ hasFB F1 d ∨ hasFB F2 d := by
  constructor
  · rintro ⟨p, hp, hpre⟩
    rcases List.mem_append.mp hp with h | h
    · exact Or.inl ⟨p, h, hpre⟩
    · exact Or.inr ⟨p, h, hpre⟩
  · rintro (⟨p, hp, hpre⟩ | ⟨p, hp, hpre⟩)
    · exact ⟨p, List.mem_append_left _ hp, hpre⟩
    · exact ⟨p, List.mem_append_right _ hp, hpre⟩

theorem prefix_getElem? {l₁ l₂ : List String} (h : l₁ <+: l₂) {n : Nat} (hn : n < l₁.length) :
    l₂[n]? = l₁[n]? := by
  obtain ⟨t, rfl⟩ := h
  exact List.getElem?_append_left hn

/-- If `d` reaches past `r` into a path lying under the child `r ++ [x]`,
then the segment of `d` at position `r.length` is `x`. -/
theorem child_getElem {d P r : List String} {x : String}
    (hd : d <+: P) (hchild : (r ++ [x]) <+: P) (hlen : r.length < d.length) :
    d[r.length]? = some x := by
  have h1 : P[r.length]? = d[r.length]? := prefix_getElem? hd hlen
  have h2 : P[r.length]? = (r ++ [x])[r.length]? := prefix_getElem? hchild (by simp)
  rw [← h1, h2, List.getElem?_concat_length]

theorem dirHeadRun_append (F1 F2 : List (List String)) : ∀ cur,
    dirHeadRun cur (F1 ++ F2)
      = ((dirHeadRun cur F1).1 ++ (dirHeadRun (dirHeadRun cur F1).2 F2).1,
         (dirHeadRun (dirHeadRun cur F1).2 F2).2) := by
  induction F1 with
  | nil => intro cur; simp [dirHeadRun]
  | cons rel F1 ih =>
    intro cur
    simp [dirHeadRun, ih, List.append_assoc]

/-- The open-segment list after a run is either unchanged (and then every
processed file's directory was already open) or the directory segments of
one of the processed files. -/
def EXITp (cur : List String) (F : List (List String)) (cur2 : List String) : Prop :=
  (∃ p ∈ F, cur2 = p.dropLast) ∨ (cur2 = cur ∧ ∀ p ∈ F, p.dropLast <+: cur)

theorem EXITp_single (cur : List String) (p : List String) :
    EXITp cur [p] (dirHeadEmit p.dropLast cur).2 := by
  rw [dirHeadEmit_snd]
  by_cases h : p.dropLast <+: cur
  · rw [if_pos h]
    right
    refine ⟨rfl, ?_⟩
    intro q hq
    rw [List.mem_singleton] at hq
    rw [hq]
    exact h
  · rw [if_neg h]
    left
    exact ⟨p, List.mem_singleton_self p, rfl⟩

theorem EXITp_comp {cur cur1 cur2 : List String} {F1 F2 : List (List String)}
    (h1 : EXITp cur F1 cur1) (h2 : EXITp cur1 F2 cur2) : EXITp cur (F1 ++ F2) cur2 := by
  rcases h2 with ⟨p, hp, rfl⟩ | ⟨rfl, hall2⟩
  · exact Or.inl ⟨p, List.mem_append_right _ hp, rfl⟩
  · rcases h1 with ⟨p, hp, rfl⟩ | ⟨rfl, hall1⟩
    · exact Or.inl ⟨p, List.mem_append_left _ hp, rfl⟩
    · right
      refine ⟨rfl, ?_⟩
      intro q hq
      rcases List.mem_append.mp hq with h | h
      · exact hall1 q h
      · exact hall2 q h

theorem dirHeadRun_exit (F : List (List String)) : ∀ cur, EXITp cur F (dirHeadRun cur F).2 := by
  induction F with
  | nil =>
    intro cur
    right
    exact ⟨rfl, by simp⟩
  | cons p F ih =>
    intro cur
    have h := EXITp_comp (EXITp_single cur p) (ih (dirHeadEmit p.dropLast cur).2)
    simpa [dirHeadRun] using h

/-- Counting over a block of files that all live directly in directory `r`
(the `filenames` of one visited directory): the first file of the block
announces the not-yet-open prefixes of `r`; later files announce nothing. -/
theorem dirHeadRun_block (r : List String) (B : List (List String)) :
    ∀ cur d, (∀ p ∈ B, p.dropLast = r) →
      ((dirHeadRun cur B).1.map DirHeading.parts).count d
        = if (B ≠ [] ∧ d <+: r) ∧ ¬ d <+: cur then 1 else 0 := by
  induction B with
  | nil =>
    intro cur d _
    simp only [dirHeadRun, List.map_nil, List.count_nil]
    rw [if_neg]
    rintro ⟨⟨h, _⟩, _⟩
    exact h rfl
  | cons p B ih =>
    intro cur d hB
    have hpr : p.dropLast = r := hB p (by simp)
    simp only [dirHeadRun, List.map_append, List.count_append]
    rw [dirHeadEmit_count, hpr]
    rw [ih (dirHeadEmit r cur).2 d (fun q hq => hB q (by simp [hq]))]
    rw [dirHeadEmit_snd]
    by_cases hrc : r <+: cur
    · rw [if_pos hrc]
      rw [if_neg (by rintro ⟨hdr, hndc⟩; exact hndc (hdr.trans hrc))]
      rw [if_neg (by rintro ⟨⟨_, hdr⟩, hndc⟩; exact hndc (hdr.trans hrc))]
      rw [if_neg (by rintro ⟨⟨_, hdr⟩, hndc⟩; exact hndc (hdr.trans hrc))]
    · rw [if_neg hrc]
      rw [if_neg (show ¬ ((B ≠ [] ∧ d <+: r) ∧ ¬ d <+: r) from by
        rintro ⟨⟨_, hdr⟩, hndr⟩; exact hndr hdr)]
      rw [Nat.add_zero]
      refine if_congr ?_ rfl rfl
      constructor
      · rintro ⟨hdr, hndc⟩
        exact ⟨⟨by simp, hdr⟩, hndc⟩
      · rintro ⟨⟨_, hdr⟩, hndc⟩
        exact ⟨hdr, hndc⟩

/-- The selected files of a subtree visited at relative path `r`: the part
of `collect_files` contributed by the walk of that subtree. -/
def collectFromTree (inc exc : List String) (maxKB : Nat) (r : List String) (T : FSDir) :
    List (List String) :=
  (walkTree exc r T).flatMap (fun e =>
    (collectDirFiles inc maxKB e.2).map (fun f => e.1 ++ [f.name]))

/-- The selected files contributed by a pruned list of subdirectories of the
directory at relative path `r`. -/
def collectFromList (inc exc : List String) (maxKB : Nat) (r : List String) (ds : List FSDir) :
    List (List String) :=
  (walkList exc r ds).flatMap (fun e =>
    (collectDirFiles inc maxKB e.2).map (fun f => e.1 ++ [f.name]))

theorem collect_files_eq_fromTree (root : FSDir) (inc exc : List String) (maxKB : Nat) :
    collect_files root inc exc maxKB = collectFromTree inc exc maxKB [] root := rfl

theorem collectFromTree_node (inc exc : List String) (maxKB : Nat) (r : List String)
    (n : String) (files : List FSFile) (subs : List FSDir) :
    collectFromTree inc exc maxKB r (.node n files subs)
      = (collectDirFiles inc maxKB files).map (fun f => r ++ [f.name])
        ++ collectFromList inc exc maxKB r subs := by
  simp [collectFromTree, collectFromList, walkTree]

theorem collectFromList_cons (inc exc : List String) (maxKB : Nat) (r : List String)
    (c : FSDir) (ds : List FSDir) :
    collectFromList inc exc maxKB r (c :: ds)
      = (if exc.contains c.dirName then []
         else collectFromTree inc exc maxKB (r ++ [c.dirName]) c)
        ++ collectFromList inc exc maxKB r ds := by
  simp only [collectFromList, collectFromTree, walkList, List.flatMap_append]
  congr 1
  by_cases h : c.dirName ∈ exc <;> simp [h]

theorem collectFromList_nil (inc exc : List String) (maxKB : Nat) (r : List String) :
    collectFromList inc exc maxKB r [] = [] := rfl

mutual

/-- Every selected file of a subtree visited at `r` has `r` as a prefix of
its directory segments. -/
theorem collectFromTree_pre (inc exc : List String) (maxKB : Nat) (T : FSDir) :
    ∀ r : List String, ∀ p ∈ collectFromTree inc exc maxKB r T, r <+: p.dropLast :=
  match T with
  | .node n files subs => by
    intro r p hp
    rw [collectFromTree_node] at hp
    rcases List.mem_append.mp hp with hp | hp
    · obtain ⟨f, _, rfl⟩ := List.mem_map.mp hp
      rw [List.dropLast_concat]
    · obtain ⟨c, _, hpre⟩ := collectFromList_pre inc exc maxKB subs r p hp
      exact (List.prefix_append r [c.dirName]).trans hpre

/-- Every selected file contributed by a pruned subdirectory list lies under
one of its surviving members. -/
theorem collectFromList_pre (inc exc : List String) (maxKB : Nat) (ds : List FSDir) :
    ∀ r : List String, ∀ p ∈ collectFromList inc exc maxKB r ds,
      ∃ c ∈ ds, (r ++ [c.dirName]) <+: p.dropLast :=
  match ds with
  | [] => by intro r p hp; rw [collectFromList_nil] at hp; cases hp
  | c :: ds => by
    intro r p hp
    rw [collectFromList_cons] at hp
    rcases List.mem_append.mp hp with hp | hp
    · by_cases hx : exc.contains c.dirName
      · rw [if_pos hx] at hp; cases hp
      · rw [if_neg hx] at hp
        exact ⟨c, by simp, collectFromTree_pre inc exc maxKB c (r ++ [c.dirName]) p hp⟩
    · obtain ⟨c', hc', hpre⟩ := collectFromList_pre inc exc maxKB ds r p hp
      exact ⟨c', by simp [hc'], hpre⟩

end

mutual

/-- Main invariant, subtree form: running the directory-heading loop over
the selected files of the subtree at `r`, from an open list `cur` whose
relevant open directories are all ancestors of `r` (as is the case along
the actual walk order), emits exactly one heading per directory that has a
selected file beneath it and is not already open. -/
theorem countTree (inc exc : List String) (maxKB : Nat) (T : FSDir) :
    ∀ r cur : List String, WFdirB T = true →
      (∀ d0, d0 <+: cur → hasFB (collectFromTree inc exc maxKB r T) d0 → d0 <+: r) →
      ∀ d, ((dirHeadRun cur (collectFromTree inc exc maxKB r T)).1.map DirHeading.parts).count d
        = if hasFB (collectFromTree inc exc maxKB r T) d ∧ ¬ d <+: cur then 1 else 0 :=
  match T with
  | .node n files subs => by
    intro r cur hwf hentry d
    simp only [WFdirB, Bool.and_eq_true, decide_eq_true_eq] at hwf
    obtain ⟨hnodup, hwfl⟩ := hwf
    rw [collectFromTree_node] at hentry ⊢
    set B := (collectDirFiles inc maxKB files).map (fun f => r ++ [f.name]) with hBdef
    set L := collectFromList inc exc maxKB r subs with hLdef
    have hB : ∀ p ∈ B, p.dropLast = r := by
      intro p hp
      rw [hBdef] at hp
      obtain ⟨f, _, rfl⟩ := List.mem_map.mp hp
      exact List.dropLast_concat
    rw [dirHeadRun_append]
    simp only [List.map_append, List.count_append]
    rw [dirHeadRun_block r B cur d hB]
    set cur1 := (dirHeadRun cur B).2 with hcur1
    have hexit : EXITp cur B cur1 := dirHeadRun_exit B cur
    have hentryL : ∀ d0, d0 <+: cur1 → hasFB L d0 → d0 <+: r := by
      intro d0 hd0c hd0L
      rcases hexit with ⟨p, hp, hc1⟩ | ⟨hc1, _⟩
      · rw [hc1, hB p hp] at hd0c
        exact hd0c
      · rw [hc1] at hd0c
        exact hentry d0 hd0c ((hasFB_append B L d0).mpr (Or.inr hd0L))
    rw [countList inc exc maxKB subs r cur1 hwfl hnodup hentryL d]
    by_cases hdc : d <+: cur
    · have h1 : ¬ ((B ≠ [] ∧ d <+: r) ∧ ¬ d <+: cur) := by rintro ⟨_, h⟩; exact h hdc
      have h2 : ¬ (hasFB L d ∧ ¬ d <+: cur1) := by
        rintro ⟨hL, hndc1⟩
        have hdr : d <+: r := hentry d hdc ((hasFB_append B L d).mpr (Or.inr hL))
        rcases hexit with ⟨p, hp, hc1⟩ | ⟨hc1, _⟩
        · exact hndc1 (by rw [hc1, hB p hp]; exact hdr)
        · exact hndc1 (by rw [hc1]; exact hdc)
      have h3 : ¬ (hasFB (B ++ L) d ∧ ¬ d <+: cur) := by rintro ⟨_, h⟩; exact h hdc
      rw [if_neg h1, if_neg h2, if_neg h3]
    · by_cases hBr : B ≠ [] ∧ d <+: r
      · have h2 : ¬ (hasFB L d ∧ ¬ d <+: cur1) := by
          rintro ⟨hL, hndc1⟩
          rcases hexit with ⟨p, hp, hc1⟩ | ⟨hc1, hallB⟩
          · exact hndc1 (by rw [hc1, hB p hp]; exact hBr.2)
          · obtain ⟨p, hp⟩ := List.exists_mem_of_ne_nil B hBr.1
            have hrc : r <+: cur := by rw [← hB p hp]; exact hallB p hp
            exact hdc (hBr.2.trans hrc)
        have h3 : hasFB (B ++ L) d ∧ ¬ d <+: cur := by
          obtain ⟨p, hp⟩ := List.exists_mem_of_ne_nil B hBr.1
          exact ⟨(hasFB_append B L d).mpr
            (Or.inl ⟨p, hp, by rw [hB p hp]; exact hBr.2⟩), hdc⟩
        rw [if_pos ⟨hBr, hdc⟩, if_neg h2, if_pos h3]
      · have h1 : ¬ ((B ≠ [] ∧ d <+: r) ∧ ¬ d <+: cur) := fun h => hBr h.1
        rw [if_neg h1, Nat.zero_add]
        by_cases hL : hasFB L d
        · have hni : ¬ d <+: cur1 := by
            rcases hexit with ⟨p, hp, hc1⟩ | ⟨hc1, _⟩
            · rw [hc1, hB p hp]
              intro hdr
              exact hBr ⟨fun hBnil => (by rw [hBnil] at hp; cases hp), hdr⟩
            · rw [hc1]; exact hdc
          rw [if_pos ⟨hL, hni⟩, if_pos ⟨(hasFB_append B L d).mpr (Or.inr hL), hdc⟩]
        · have h2 : ¬ (hasFB L d ∧ ¬ d <+: cur1) := fun h => hL h.1
          have h3 : ¬ (hasFB (B ++ L) d ∧ ¬ d <+: cur) := by
            rintro ⟨hBL, _⟩
            rcases (hasFB_append B L d).mp hBL with hBB | hLL
            · obtain ⟨p, hp, hdp⟩ := hBB
              exact hBr ⟨fun hBnil => (by rw [hBnil] at hp; cases hp),
                (by rw [← hB p hp]; exact hdp)⟩
            · exact hL hLL
          rw [if_neg h2, if_neg h3]

/-- Main invariant, sibling-list form. -/
theorem countList (inc exc : List String) (maxKB : Nat) (ds : List FSDir) :
    ∀ r cur : List String, WFlistB ds = true → (ds.map FSDir.dirName).Nodup →
      (∀ d0, d0 <+: cur → hasFB (collectFromList inc exc maxKB r ds) d0 → d0 <+: r) →
      ∀ d, ((dirHeadRun cur (collectFromList inc exc maxKB r ds)).1.map DirHeading.parts).count d
        = if hasFB (collectFromList inc exc maxKB r ds) d ∧ ¬ d <+: cur then 1 else 0 :=
  match ds with
  | [] => by
    intro r cur _ _ _ d
    rw [collectFromList_nil]
    simp only [dirHeadRun, List.map_nil, List.count_nil]
    rw [if_neg]
    rintro ⟨⟨p, hp, _⟩, _⟩
    cases hp
  | c :: cs => by
    intro r cur hwf hnodup hentry d
    simp only [WFlistB, Bool.and_eq_true] at hwf
    obtain ⟨hwfc, hwfcs⟩ := hwf
    rw [List.map_cons] at hnodup
    have hnodup2 := (List.nodup_cons).mp hnodup
    have hnodupc : c.dirName ∉ cs.map FSDir.dirName := hnodup2.1
    have hnodupcs : (cs.map FSDir.dirName).Nodup := hnodup2.2
    rw [collectFromList_cons] at hentry ⊢
    by_cases hxc : exc.contains c.dirName
    · rw [if_pos hxc] at hentry ⊢
      simp only [List.nil_append] at hentry ⊢
      exact countList inc exc maxKB cs r cur hwfcs hnodupcs hentry d
    · rw [if_neg hxc] at hentry ⊢
      set Fc := collectFromTree inc exc maxKB (r ++ [c.dirName]) c with hFcdef
      set Fcs := collectFromList inc exc maxKB r cs with hFcsdef
      have hFcpre : ∀ p ∈ Fc, (r ++ [c.dirName]) <+: p.dropLast := by
        intro p hp
        rw [hFcdef] at hp
        exact collectFromTree_pre inc exc maxKB c (r ++ [c.dirName]) p hp
      have hFcspos : ∀ q ∈ Fcs, ∃ c2, c2 ∈ cs ∧ (r ++ [c2.dirName]) <+: q.dropLast := by
        intro q hq
        rw [hFcsdef] at hq
        obtain ⟨c2, hc2, hpre⟩ := collectFromList_pre inc exc maxKB cs r q hq
        exact ⟨c2, hc2, hpre⟩
      have hdisj : ∀ {d0 : List String}, (∃ p ∈ Fc, d0 <+: p.dropLast) → hasFB Fcs d0 →
          d0 <+: r := by
        rintro d0 ⟨p, hp, hdp⟩ ⟨q, hq, hdq⟩
        rcases le_or_lt d0.length r.length with hle | hlt
        · exact List.prefix_of_prefix_length_le hdp
            ((List.prefix_append r [c.dirName]).trans (hFcpre p hp)) (by simpa using hle)
        · exfalso
          have h1 : d0[r.length]? = some c.dirName := child_getElem hdp (hFcpre p hp) hlt
          obtain ⟨c2, hc2, hpre2⟩ := hFcspos q hq
          have h2 : d0[r.length]? = some c2.dirName := child_getElem hdq hpre2 hlt
          rw [h1] at h2
          have heq := Option.some.inj h2
          exact hnodupc (List.mem_map.mpr ⟨c2, hc2, heq.symm⟩)
      have hentryc : ∀ d0, d0 <+: cur → hasFB Fc d0 → d0 <+: r ++ [c.dirName] := by
        intro d0 hd0 hFc0
        exact (hentry d0 hd0 ((hasFB_append Fc Fcs d0).mpr (Or.inl hFc0))).trans
          (List.prefix_append r [c.dirName])
      rw [dirHeadRun_append]
      simp only [List.map_append, List.count_append]
      rw [countTree inc exc maxKB c (r ++ [c.dirName]) cur hwfc hentryc d]
      set cur1 := (dirHeadRun cur Fc).2 with hc1def
      have hexit : EXITp cur Fc cur1 := dirHeadRun_exit Fc cur
      have hentrycs : ∀ d0, d0 <+: cur1 → hasFB Fcs d0 → d0 <+: r := by
        intro d0 hd0c hd0cs
        rcases hexit with ⟨p, hp, hc1⟩ | ⟨hc1, _⟩
        · rw [hc1] at hd0c
          exact hdisj ⟨p, hp, hd0c⟩ hd0cs
        · rw [hc1] at hd0c
          exact hentry d0 hd0c ((hasFB_append Fc Fcs d0).mpr (Or.inr hd0cs))
      rw [countList inc exc maxKB cs r cur1 hwfcs hnodupcs hentrycs d]
      by_cases hdc : d <+: cur
      · have h1 : ¬ (hasFB Fc d ∧ ¬ d <+: cur) := fun h => h.2 hdc
        have h2 : ¬ (hasFB Fcs d ∧ ¬ d <+: cur1) := by
          rintro ⟨hcs, hndc1⟩
          apply hndc1
          have hdr : d <+: r := hentry d hdc ((hasFB_append Fc Fcs d).mpr (Or.inr hcs))
          rcases hexit with ⟨p, hp, hc1⟩ | ⟨hc1, _⟩
          · rw [hc1]
            exact hdr.trans ((List.prefix_append r [c.dirName]).trans (hFcpre p hp))
          · rw [hc1]; exact hdc
        have h3 : ¬ (hasFB (Fc ++ Fcs) d ∧ ¬ d <+: cur) := fun h => h.2 hdc
        rw [if_neg h1, if_neg h2, if_neg h3]
      · by_cases hFc : hasFB Fc d
        · have h2 : ¬ (hasFB Fcs d ∧ ¬ d <+: cur1) := by
            rintro ⟨hcs, hndc1⟩
            apply hndc1
            have hdr : d <+: r := hdisj hFc hcs
            rcases hexit with ⟨p, hp, hc1⟩ | ⟨hc1, hall⟩
            · rw [hc1]
              exact hdr.trans ((List.prefix_append r [c.dirName]).trans (hFcpre p hp))
            · exfalso
              obtain ⟨p, hp, hdp⟩ := hFc
              exact hdc (hdp.trans (hall p hp))
          rw [if_pos ⟨hFc, hdc⟩, if_neg h2,
            if_pos ⟨(hasFB_append Fc Fcs d).mpr (Or.inl hFc), hdc⟩]
        · have h1 : ¬ (hasFB Fc d ∧ ¬ d <+: cur) := fun h => hFc h.1
          rw [if_neg h1, Nat.zero_add]
          by_cases hcs : hasFB Fcs d
          · have hni : ¬ d <+: cur1 := by
              rcases hexit with ⟨p, hp, hc1⟩ | ⟨hc1, _⟩
              · rw [hc1]
                intro hdp
                exact hFc ⟨p, hp, hdp⟩
              · rw [hc1]; exact hdc
            rw [if_pos ⟨hcs, hni⟩, if_pos ⟨(hasFB_append Fc Fcs d).mpr (Or.inr hcs), hdc⟩]
          · have h2 : ¬ (hasFB Fcs d ∧ ¬ d <+: cur1) := fun h => hcs h.1
            have h3 : ¬ (hasFB (Fc ++ Fcs) d ∧ ¬ d <+: cur) := by
              rintro ⟨hBL, _⟩
              rcases (hasFB_append Fc Fcs d).mp hBL with h | h
              · exact hFc h
              · exact hcs h
            rw [if_neg h2, if_neg h3]

end

/-- C3: (1) consuming the file list in the selector's ordering from the
initial empty open list, exactly one directory heading is emitted per
distinct nonempty directory path that has a selected file beneath it, and
none for any other path; (2) per file, a heading is emitted exactly for
every prefix of the file's directory segments reaching past the first
point of divergence from the previous open list; (3) after each file the
open list is reset to the file's directory segments when a divergence
occurred, and kept otherwise. -/
theorem C3_dir_headings (root : FSDir) (inc exc : List String) (maxKB : Nat)
    (hwf : WFdirB root = true) :
    (∀ d, ((dirHeadRun [] (collect_files root inc exc maxKB)).1.map DirHeading.parts).count d
        = if hasFB (collect_files root inc exc maxKB) d ∧ d ≠ [] then 1 else 0)
    ∧ (∀ cur dp d, d ∈ (dirHeadEmit dp cur).1.map DirHeading.parts
        ↔ d <+: dp ∧ firstDiff cur dp < d.length)
    ∧ (∀ cur dp, (dirHeadEmit dp cur).2 = if firstDiff cur dp < dp.length then dp else cur) := by
  refine ⟨?_, fun cur dp d => dirHeadEmit_mem_iff dp cur d, ?_⟩
  · intro d
    rw [collect_files_eq_fromTree]
    rw [countTree inc exc maxKB root [] [] hwf (fun d0 h _ => h) d]
    refine if_congr ?_ rfl rfl
    constructor
    · rintro ⟨h1, h2⟩
      refine ⟨h1, ?_⟩
      rintro rfl
      exact h2 List.nil_prefix
    · rintro ⟨h1, h2⟩
      refine ⟨h1, fun hx => h2 ((List.prefix_nil).mp hx)⟩
  · intro cur dp
    rw [dirHeadEmit_snd]
    by_cases h : dp <+: cur
    · rw [if_pos h,
        if_neg (fun hlt => ((firstDiff_lt_iff dp cur dp List.prefix_rfl).mp hlt) h)]
    · rw [if_neg h, if_pos ((firstDiff_lt_iff dp cur dp List.prefix_rfl).mpr h)]

/-- A small concrete repository for the C3 witness. -/
def c3tree : FSDir :=
  FSDir.node "repo" []
    [FSDir.node "a" [⟨"x.py", 1, true⟩] [], FSDir.node "b" [⟨"y.py", 1, true⟩] []]

/-- Witness for C3 at a concrete well-formed filesystem and path. -/
theorem C3_witness :
    WFdirB c3tree = true
    ∧ ((dirHeadRun [] (collect_files c3tree [".py"] [] 512)).1.map DirHeading.parts).count ["a"]
        = if hasFB (collect_files c3tree [".py"] [] 512) ["a"] ∧ (["a"] : List String) ≠ []
          then 1 else 0 :=
  ⟨by decide, (C3_dir_headings c3tree [".py"] [] 512 (by decide)).1 ["a"]⟩
